import Mathlib

/-!
Verification of the numeric-input normalization pipeline
(`normalizeNumericInput`, the leading-zero reducer, the focused and blur-time
clamp policy, the overflow clamp and the formatter) of the
`numeric-input-react` library, as a shallow embedding over `List Char`.

Numbers are modelled exactly: a numeric value is a decimal
`Dec` with integer mantissa `m` and exponent `e`, standing for `m / 10^e`.
The pipeline performs no arithmetic beyond parsing, order comparisons and
substitution of configured bounds, so within the safe-integer range this is a
faithful model of the host's IEEE-754 doubles; the host's exponential
rendering for magnitudes below 1e-6 or at or above 1e21 is outside the
modelled range.
-/

/-- Characters of a string, the form used throughout the model. -/
def str (s : String) : List Char := s.data

/-- Does `l` start with the prefix `p`? (model of `String.startsWith`). -/
def listStartsWith : List Char → List Char → Bool
  | _, [] => true
  | [], _ :: _ => false
  | c :: l, p :: ps => c = p && listStartsWith l ps

/-- Does `l` end with the suffix `p`? (model of `String.endsWith`). -/
def listEndsWith (l p : List Char) : Bool :=
  listStartsWith l.reverse p.reverse

/-- Glyph normalizer `convertFullWidthToHalfWidth`, per character: full-width
digits `０`-`９` shift down by `0xfee0`; full-width period and comma map to
`.` and `,`; the full-width hyphen `－`, the katakana long-vowel mark `ー`
and the mathematical minus `−` all map to `-`. Every other character is
untouched. -/
def convChar (c : Char) : Char :=
  if '０' ≤ c ∧ c ≤ '９' then Char.ofNat (c.toNat - 0xfee0)
  else if c = '．' then '.'
  else if c = '，' then ','
  else if c = '－' then '-'
  else if c = 'ー' then '-'
  else if c = '−' then '-'
  else c

/-- `convertFullWidthToHalfWidth` on character lists. -/
def convertFullWidthToHalfWidth (l : List Char) : List Char :=
  l.map convChar

/-- `isMinusSign`: the four accepted minus-sign glyphs. -/
def isMinusSign (l : List Char) : Bool :=
  l = ['-'] || l = ['－'] || l = ['ー'] || l = ['−']

/-- Exact decimal number `m / 10^e`; the model of the host's number type
on the clean decimal values the pipeline manipulates. -/
structure Dec where
  m : Int
  e : Nat
deriving DecidableEq, Repr

/-- Rational value of a `Dec`. -/
def Dec.toRat (d : Dec) : ℚ := (d.m : ℚ) / (10 : ℚ) ^ d.e

/-- Strict order test between two `Dec`s, by cross multiplication. -/
def decLt (a b : Dec) : Bool :=
  a.m * (10 : Int) ^ b.e < b.m * (10 : Int) ^ a.e

/-- `Number.MAX_SAFE_INTEGER` = 2^53 - 1. -/
def MAX_SAFE_INTEGER : Int := 9007199254740991

/-- Does `|d|` exceed the safe-integer ceiling? (`Math.abs(v) > Number.MAX_SAFE_INTEGER`). -/
def decAbsGtMax (d : Dec) : Bool :=
  MAX_SAFE_INTEGER * (10 : Int) ^ d.e < |d.m|

/-- Characters kept by the sanitizer's first pass: digits always, `.` when
decimals are allowed, `-` when negatives are allowed (the complement of the
`allowedChars` removal regexes). -/
def allowedChar (allowDecimal allowNegative : Bool) (c : Char) : Bool :=
  c.isDigit || (allowDecimal && c = '.') || (allowNegative && c = '-')

/-- Deduplication step of the minus pass: when more than one `-` is present,
the source's offset-based replace keeps a `-` only when it sits at offset 0,
so a leading minus survives and every other minus is dropped; with no
leading minus, all are dropped. -/
def dedupMinus (l : List Char) : List Char :=
  if 1 < l.count '-' then
    if listStartsWith l ['-'] then '-' :: (l.drop 1).filter (fun c => c ≠ '-')
    else l.filter (fun c => c ≠ '-')
  else l

/-- Relocation step of the minus pass: a `-` that is present but not at the
start is moved to the start, every other minus removed. -/
def moveMinusFront (l : List Char) : List Char :=
  if l.contains '-' && !(listStartsWith l ['-']) then
    '-' :: l.filter (fun c => c ≠ '-')
  else l

/-- Minus-sign pass of `normalizeNumericInput`: when negatives are allowed,
deduplicate then relocate; when disallowed, remove every `-`. -/
def handleMinus (allowNegative : Bool) (l : List Char) : List Char :=
  if allowNegative then moveMinusFront (dedupMinus l)
  else l.filter (fun c => c ≠ '-')

/-- Keep the first `.` of the list and strip every later `.`
(`slice(0, i+1) + slice(i+1).replace(/\./g, '')`). -/
def keepFirstDot : List Char → List Char
  | [] => []
  | c :: rest =>
    if c = '.' then '.' :: rest.filter (fun x => x ≠ '.')
    else c :: keepFirstDot rest

/-- Decimal-point pass of `normalizeNumericInput`: when decimals are allowed
and more than one `.` is present, keep only the first; when decimals are
disallowed, remove every `.`. -/
def handleDecimal (allowDecimal : Bool) (l : List Char) : List Char :=
  if allowDecimal then
    if 1 < l.count '.' then keepFirstDot l else l
  else
    l.filter (fun c => c ≠ '.')

/-- Digit count of a token (`(normalized.match(/\d/g) || []).length`). -/
def countDigits (l : List Char) : Nat := l.countP (fun c => c.isDigit)

/-- The digit-cap rebuild loop of `normalizeNumericInput`: digits are kept
until `n` have been seen and dropped afterwards; a `.` is kept only once and
only after at least one digit has been kept; every other character is
dropped. `seen` and `dotAdded` mirror the source's `digitsSeen` and
`decimalAdded` accumulators. -/
def capLoop (n : Nat) : Nat → Bool → List Char → List Char
  | _, _, [] => []
  | seen, dotAdded, c :: rest =>
    if c.isDigit then
      if seen < n then c :: capLoop n (seen + 1) dotAdded rest
      else capLoop n seen dotAdded rest
    else if c = '.' && !dotAdded then
      if 0 < seen then '.' :: capLoop n seen true rest
      else capLoop n seen dotAdded rest
    else capLoop n seen dotAdded rest

/-- `maxLength` pass of `normalizeNumericInput`. A `maxLength` of 0 is falsy
in the source (`if (maxLength)`) and disables the cap entirely. The cap
rebuild runs only when the token holds more than `maxLength` digits; it
preserves a leading minus and feeds the rest through `capLoop`. -/
def applyMaxLength (maxLen : Option Nat) (l : List Char) : List Char :=
  match maxLen with
  | none => l
  | some n =>
    if n = 0 then l
    else if n < countDigits l then
      if listStartsWith l ['-'] then '-' :: capLoop n 0 false (l.drop 1)
      else capLoop n 0 false l
    else l

/-- The token sanitizer `normalizeNumericInput`: character filter, then the
minus pass, the decimal pass and the digit cap, in the source's order. -/
def normalizeNumericInput (input : List Char) (allowDecimal allowNegative : Bool)
    (maxLen : Option Nat) : List Char :=
  applyMaxLength maxLen
    (handleDecimal allowDecimal
      (handleMinus allowNegative
        (input.filter (allowedChar allowDecimal allowNegative))))

/-- Numeric value of a digit list, most significant first. -/
def digitsToNat (l : List Char) : Nat :=
  l.foldl (fun a c => 10 * a + (c.toNat - 48)) 0

/-- Decimal parse of a token (the model of the host's `Number()` on the
sign/digits/point strings the pipeline produces): an optional leading `-`,
then digits, an optional `.`, and further digits, with at least one digit in
total; anything else fails (`NaN`). The empty string parses to 0, as in the
host. The mantissa is the concatenated digits, the exponent the number of
fractional digits. -/
def parseDec (l : List Char) : Option Dec :=
  if l = [] then some ⟨0, 0⟩
  else
    let neg := listStartsWith l ['-']
    let l' := if neg then l.drop 1 else l
    let ip := l'.takeWhile (fun c => c.isDigit)
    let rest := l'.dropWhile (fun c => c.isDigit)
    if rest = [] then
      if ip = [] then none
      else some ⟨(if neg then -1 else 1) * (digitsToNat ip : Int), 0⟩
    else if listStartsWith rest ['.'] then
      let frac := rest.drop 1
      if frac.all (fun c => c.isDigit) && !(ip = [] && frac = []) then
        some ⟨(if neg then -1 else 1) * (digitsToNat (ip ++ frac) : Int), frac.length⟩
      else none
    else none

/-- Decimal digits of a natural number, most significant first, by fuel
recursion (`fuel` at least the digit count; `natToDigits` supplies `n + 1`). -/
def natToDigitsAux : Nat → Nat → List Char → List Char
  | 0, _, acc => acc
  | fuel + 1, n, acc =>
    if n < 10 then Char.ofNat (48 + n % 10) :: acc
    else natToDigitsAux fuel (n / 10) (Char.ofNat (48 + n % 10) :: acc)

/-- Decimal digits of a natural number, most significant first; `0` renders
as `"0"`. -/
def natToDigits (n : Nat) : List Char :=
  natToDigitsAux (n + 1) n []

/-- Strip factors of 10 shared between mantissa and exponent, so that the
rendering below matches the host's shortest decimal form (`(0.50).toString()`
is `"0.5"`, `(-0).toString()` is `"0"`). -/
def decNormalizeAux : Nat → Int → Dec
  | 0, m => ⟨m, 0⟩
  | e + 1, m => if m % 10 = 0 then decNormalizeAux e (m / 10) else ⟨m, e + 1⟩

/-- Normalized form of a `Dec` (see `decNormalizeAux`). -/
def Dec.normalize (d : Dec) : Dec := decNormalizeAux d.e d.m

/-- The digit string of `|m|`, padded with leading zeros to at least
`e + 1` digits. -/
def renderPadded (m : Int) (e : Nat) : List Char :=
  List.replicate (e + 1 - (natToDigits m.natAbs).length) '0' ++ natToDigits m.natAbs

/-- The digits of the rendering with the `.` inserted `e` places from the
right when `e` is nonzero. -/
def renderDigits (m : Int) (e : Nat) : List Char :=
  if e = 0 then renderPadded m e
  else
    (renderPadded m e).take ((renderPadded m e).length - e) ++
      '.' :: (renderPadded m e).drop ((renderPadded m e).length - e)

/-- Decimal rendering of an already-normalized mantissa/exponent pair:
the padded digit string of `|m|`, a `.` inserted `e` places from the right
when `e` is nonzero, and a leading `-` for negative `m`. -/
def renderCore (m : Int) (e : Nat) : List Char :=
  if m < 0 then '-' :: renderDigits m e else renderDigits m e

/-- The host's `toString` for the modelled numbers: render the normalized
form. -/
def Dec.render (d : Dec) : List Char :=
  let n := d.normalize
  renderCore n.m n.e

/-- Thousands grouping: insert `sep` before the digit at index `i` whenever
`i` is positive and the number of remaining digits `n - i` is a multiple of 3
(the effect of the formatter's `\B(?=(\d{3})+(?!\d))` lookahead on a digit
string of length `n`). -/
def group3Aux (sep : List Char) (n : Nat) : Nat → List Char → List Char
  | _, [] => []
  | i, c :: rest =>
    (if 0 < i ∧ (n - i) % 3 = 0 then sep ++ [c] else [c]) ++ group3Aux sep n (i + 1) rest

/-- Group the integer part with the separator; a leading `-` sits on a word
boundary and is never grouped away from the first digit. -/
def groupInt (sep : List Char) (ip : List Char) : List Char :=
  if listStartsWith ip ['-'] then
    '-' :: group3Aux sep (ip.drop 1).length 0 (ip.drop 1)
  else group3Aux sep ip.length 0 ip

/-- `split('.')` on character lists. -/
def splitDots : List Char → List (List Char)
  | [] => [[]]
  | c :: rest =>
    if c = '.' then [] :: splitDots rest
    else
      match splitDots rest with
      | s :: ss => (c :: s) :: ss
      | [] => [[c]]

/-- The configuration consumed by `useNumericInput`, restricted to the fields
the pipeline reads. The separator is optional; the empty separator is falsy
in the source and disables grouping. -/
structure Config where
  allowDecimal : Bool
  allowNegative : Bool
  separator : Option (List Char)
  minValue : Option Dec
  maxValue : Option Dec
  maxDecimalPlaces : Option Nat
  maxLength : Option Nat
deriving DecidableEq, Repr

/-- The formatter `formatValue`: render the number, split at the decimal
point, group the integer part with the separator and reattach the untouched
fractional part. With no (or an empty) separator the plain rendering is
returned. The NaN/non-finite branch of the source cannot arise for `Dec`. -/
def formatValue (cfg : Config) (v : Dec) : List Char :=
  match cfg.separator with
  | none => v.render
  | some sep =>
    if sep = [] then v.render
    else
      match (splitDots v.render)[1]? with
      | none => groupInt sep ((splitDots v.render).headD [])
      | some dp => groupInt sep ((splitDots v.render).headD []) ++ '.' :: dp

/-- The `maxDecimalPlaces` truncation of `handleValueChange`: when decimals
are allowed and the token holds a decimal point, keep at most `k` digits
after the first `.`. -/
def truncDecimalPlaces (maxDP : Option Nat) (allowDecimal : Bool) (l : List Char) : List Char :=
  match maxDP with
  | none => l
  | some k =>
    if allowDecimal then
      if l.contains '.' then
        let ip := l.takeWhile (fun c => c ≠ '.')
        let dp := (l.dropWhile (fun c => c ≠ '.')).drop 1
        if k < dp.length then ip ++ '.' :: dp.take k else l
      else l
    else l

/-- The four tokens the leading-zero reducer preserves verbatim. -/
def shouldKeepSingleZero (l : List Char) : Bool :=
  l = str "0" || l = str "-0" || l = str "0." || l = str "-0."

/-- The leading-zero reducer of `handleValueChange` (lines 169-197 of
`use-numeric-input.ts`): keep the four single-zero idioms verbatim; otherwise
split an optional leading minus; if the rest holds a `.`, destructure
`split('.')` into its first two parts, strip leading zeros from the integer
part and reassemble (`0.` + decimals when the integer part emptied and
decimals are present, plain `0` when both emptied, else
integer`.`decimals); with no `.`, strip leading zeros and substitute `0`
if nothing remains. -/
def leadingZeroReduce (l : List Char) : List Char :=
  if shouldKeepSingleZero l then l
  else
    let hasMinus := listStartsWith l ['-']
    let w := if hasMinus then l.drop 1 else l
    let sgn : List Char := if hasMinus then ['-'] else []
    if w.contains '.' then
      let parts := splitDots w
      let ip := parts.headD []
      let dp := (parts[1]?).getD []
      let ci := ip.dropWhile (fun c => c = '0')
      if ci = [] ∧ dp ≠ [] then sgn ++ '0' :: '.' :: dp
      else if ci = [] then sgn ++ ['0']
      else sgn ++ ci ++ '.' :: dp
    else
      let cleaned := w.dropWhile (fun c => c = '0')
      if cleaned = [] then sgn ++ ['0'] else sgn ++ cleaned

/-- Clamp from below: substitute the bound when the value lies under a
defined `minValue`. -/
def clampBelow (mn : Option Dec) (v : Dec) : Dec :=
  match mn with
  | some b => if decLt v b then b else v
  | none => v

/-- Clamp from above: substitute the bound when the value lies over a
defined `maxValue`. -/
def clampAbove (mx : Option Dec) (v : Dec) : Dec :=
  match mx with
  | some b => if decLt b v then b else v
  | none => v

/-- Sequential range clamp of the pipeline: raise to `minValue` when below
it, then lower to `maxValue` when above it, each bound applied wherever
defined; the flag records whether either clamp changed the value
(`shouldClamp` / `shouldUpdate` in the source). -/
def clampSeq (cfg : Config) (v : Dec) : Dec × Bool :=
  let p1 :=
    match cfg.minValue with
    | some mn => if decLt v mn then (mn, true) else (v, false)
    | none => (v, false)
  let p2 :=
    match cfg.maxValue with
    | some mx => if decLt mx p1.1 then (mx, true) else (p1.1, false)
    | none => (p1.1, false)
  (p2.1, p1.2 || p2.2)

/-- The `isSingleZero` test of `handleValueChange` (lines 229-233): the exact
tokens `0` and `-0`, and any token starting with `0.` or `-0.`. -/
def isSingleZeroTok (l : List Char) : Bool :=
  l = str "0" || l = str "-0" || listStartsWith l (str "0.") || listStartsWith l (str "-0.")

/-- The `endsWithDecimalPoint` test: decimals allowed and the token ends in
`.` but not in `..`. -/
def endsWithDecPoint (allowDecimal : Bool) (l : List Char) : Bool :=
  allowDecimal && listEndsWith l (str ".") && !(listEndsWith l (str ".."))

/-- A token is exempt from the focused-session clamp when either test above
holds (the guard of lines 247-258). -/
def clampExempt (cfg : Config) (l : List Char) : Bool :=
  isSingleZeroTok l || endsWithDecPoint cfg.allowDecimal l

/-- Scientific-notation strip: remove every `e` and `E`. -/
def stripSci (l : List Char) : List Char :=
  l.filter (fun c => c ≠ 'e' && c ≠ 'E')

/-- The sanitized token `handleValueChange` works on: glyph-normalize, strip
`e`/`E`, sanitize, then truncate decimal places. -/
def sanitizedTokenOf (cfg : Config) (input : List Char) : List Char :=
  truncDecimalPlaces cfg.maxDecimalPlaces cfg.allowDecimal
    (normalizeNumericInput (stripSci (convertFullWidthToHalfWidth input))
      cfg.allowDecimal cfg.allowNegative cfg.maxLength)

/-- The safe-integer overflow clamp (`valueAsNumber > 0 ?
Number.MAX_SAFE_INTEGER : -Number.MAX_SAFE_INTEGER`). -/
def overflowClamp (v : Dec) : Dec :=
  if 0 < v.m then ⟨MAX_SAFE_INTEGER, 0⟩ else ⟨-MAX_SAFE_INTEGER, 0⟩

/-- The emitted result `{ value, formattedValue }`. -/
structure Emit where
  value : Dec
  formattedValue : List Char
deriving DecidableEq, Repr

/-- `handleValueChange` outside IME composition (the `skipCompositionCheck`
path): returns the new `rawInputValue` state and the emitted value object.
Follows the source order: sanitize; empty input; lone minus; leading-zero
reduction; parse (the NaN branch clears the state); safe-integer overflow
clamp; the focused-session clamp with its exemptions; emission (exempt
tokens emit the reduced token verbatim, others the formatted final value). -/
def handleValueChange (cfg : Config) (input : List Char) : List Char × Emit :=
  let rawValue := sanitizedTokenOf cfg input
  if rawValue = [] then ([], ⟨⟨0, 0⟩, []⟩)
  else if rawValue = ['-'] then
    if cfg.allowNegative then (['-'], ⟨⟨0, 0⟩, ['-']⟩)
    else ([], ⟨⟨0, 0⟩, []⟩)
  else
    let t := leadingZeroReduce rawValue
    match parseDec t with
    | none => ([], ⟨⟨0, 0⟩, []⟩)
    | some v =>
      if decAbsGtMax v then
        let c := overflowClamp v
        (c.render, ⟨c, formatValue cfg c⟩)
      else
        let isZ := isSingleZeroTok t
        let ewd := endsWithDecPoint cfg.allowDecimal t
        let fs := if !isZ && !ewd then clampSeq cfg v else (v, false)
        if isZ || ewd then
          ((if fs.2 then fs.1.render else t), ⟨fs.1, if fs.2 then formatValue cfg fs.1 else t⟩)
        else
          ((if fs.2 then fs.1.render else t), ⟨fs.1, formatValue cfg fs.1⟩)

/-- The blur-time clamp block of `handleBlur` (lines 368-393): skipped for an
empty `rawInputValue` and for a preserved minus sign under `allowNegative`;
otherwise the glyph-normalized raw token is parsed and clamped, and an
update (new raw token, emission) is produced only when a bound changed the
value. -/
def blurClampStep (cfg : Config) (raw : List Char) : Option (List Char × Emit) :=
  if raw ≠ [] && !(cfg.allowNegative && isMinusSign raw) then
    match parseDec (convertFullWidthToHalfWidth raw) with
    | some v =>
      let p := clampSeq cfg v
      if p.2 then some (p.1.render, ⟨p.1, formatValue cfg p.1⟩) else none
    | none => none
  else none

/-- The minus-normalization block of `handleBlur` (lines 396-402): a
preserved full-width minus is rewritten to the ASCII lone minus. -/
def blurMinusStep (cfg : Config) (raw fieldText : List Char) : Option (List Char × Emit) :=
  if (cfg.allowNegative && (isMinusSign raw || isMinusSign fieldText))
      && isMinusSign raw && raw ≠ ['-'] then
    some (['-'], ⟨⟨0, 0⟩, ['-']⟩)
  else none

/-- `handleBlur` outside IME composition (`isComposing` false, empty
`composingBuffer`, no pending composition flush): re-run the pipeline over
the non-empty field text, then apply the blur-time clamp to the session's
raw token captured at render time, then normalize a preserved minus.
Returns the final raw-token state and the emissions in order. -/
def handleBlur (cfg : Config) (raw fieldText : List Char) : List Char × List Emit :=
  let step1 : Option (List Char × Emit) :=
    if fieldText ≠ [] then some (handleValueChange cfg (convertFullWidthToHalfWidth fieldText))
    else none
  let step2 := blurClampStep cfg raw
  let step3 := blurMinusStep cfg raw fieldText
  let finalRaw :=
    match step3, step2, step1 with
    | some p, _, _ => p.1
    | none, some p, _ => p.1
    | none, none, some p => p.1
    | none, none, none => raw
  (finalRaw, [step1, step2, step3].filterMap (fun o => o.map (fun p => p.2)))

/-- The leading-zero reducer exactly as claim C5 words it (for comparison
with the source's `leadingZeroReduce`): preserve the four idiom tokens;
otherwise split an optional leading minus and an optional decimal suffix,
strip leading zeros from the integer part, substitute `0` if it empties,
and reattach the sign and the decimal suffix. -/
def leadingZeroReduceSpec (l : List Char) : List Char :=
  if shouldKeepSingleZero l then l
  else
    let hasMinus := listStartsWith l ['-']
    let w := if hasMinus then l.drop 1 else l
    let sgn : List Char := if hasMinus then ['-'] else []
    if w.contains '.' then
      let ip := w.takeWhile (fun c => c ≠ '.')
      let dp := (w.dropWhile (fun c => c ≠ '.')).drop 1
      let ci := ip.dropWhile (fun c => c = '0')
      sgn ++ (if ci = [] then ['0'] else ci) ++ '.' :: dp
    else
      let ci := w.dropWhile (fun c => c = '0')
      sgn ++ (if ci = [] then ['0'] else ci)

/-- Claim C5 amended: as `leadingZeroReduceSpec`, except that when the
integer part strips to nothing and the decimal suffix after the point is
empty (tokens like `00.`), the decimal point is dropped and the result is
the bare signed zero. -/
def leadingZeroReduceAmended (l : List Char) : List Char :=
  if shouldKeepSingleZero l then l
  else
    let hasMinus := listStartsWith l ['-']
    let w := if hasMinus then l.drop 1 else l
    let sgn : List Char := if hasMinus then ['-'] else []
    if w.contains '.' then
      let ip := w.takeWhile (fun c => c ≠ '.')
      let dp := (w.dropWhile (fun c => c ≠ '.')).drop 1
      let ci := ip.dropWhile (fun c => c = '0')
      if ci = [] ∧ dp = [] then sgn ++ ['0']
      else sgn ++ (if ci = [] then ['0'] else ci) ++ '.' :: dp
    else
      let ci := w.dropWhile (fun c => c = '0')
      sgn ++ (if ci = [] then ['0'] else ci)

/-- A token carries its minus sign, if any, only in first position. -/
def goodMinus : List Char → Prop
  | [] => True
  | _ :: rest => '-' ∉ rest

example : decLt ⟨5, 1⟩ ⟨1, 0⟩ = true := by decide

example : str "0.5" = ['0', '.', '5'] := by decide

example : listStartsWith (str "0.5") (str "0.") = true := by decide

example : listEndsWith (str "12.") (str ".") = true := by decide

example : convertFullWidthToHalfWidth (str "１２－") = str "12-" := by decide

example : normalizeNumericInput (str "1-2-3") true true none = str "123" := by decide

example : normalizeNumericInput (str "1-2") true true none = str "-12" := by decide

example : normalizeNumericInput (str "1.2.3") true true none = str "1.23" := by decide

example : normalizeNumericInput (str "abc-1.5x") true false none = str "1.5" := by decide

example : normalizeNumericInput (str "123.45") true false (some 2) = str "12." := by decide

example : normalizeNumericInput (str ".123") true false (some 2) = str "12" := by decide

example : normalizeNumericInput (str "-12345") true true (some 3) = str "-123" := by decide

example : normalizeNumericInput (str "12345") true false (some 0) = str "12345" := by decide

example : parseDec (str "0.5") = some ⟨5, 1⟩ := by decide

example : parseDec (str "-12.") = some ⟨-12, 0⟩ := by decide

example : parseDec (str ".25") = some ⟨25, 2⟩ := by decide

example : parseDec (str "-") = none := by decide

example : parseDec (str ".") = none := by decide

example : parseDec (str "-0") = some ⟨0, 0⟩ := by decide

example : Dec.render ⟨5, 1⟩ = str "0.5" := by decide

example : Dec.render ⟨50, 2⟩ = str "0.5" := by decide

example : Dec.render ⟨-12345, 2⟩ = str "-123.45" := by decide

example : Dec.render ⟨0, 5⟩ = str "0" := by decide

example : Dec.render ⟨5, 3⟩ = str "0.005" := by decide

example : Dec.render ⟨9007199254740991, 0⟩ = str "9007199254740991" := by decide

example : formatValue ⟨true, false, some (str ","), none, none, none, none⟩ ⟨1234567, 0⟩ =
    str "1,234,567" := by decide

example : formatValue ⟨true, false, some (str ","), none, none, none, none⟩ ⟨-123456798, 3⟩ =
    str "-123,456.798" := by decide

example : leadingZeroReduce (str "00123") = str "123" := by decide

example : leadingZeroReduce (str "00.1") = str "0.1" := by decide

example : leadingZeroReduce (str "-0123") = str "-123" := by decide

example : leadingZeroReduce (str "00.") = str "0" := by decide

example : leadingZeroReduce (str "0.") = str "0." := by decide

example :
    handleValueChange ⟨false, false, none, some ⟨10, 0⟩, some ⟨100, 0⟩, none, none⟩ (str "5") =
      (str "10", ⟨⟨10, 0⟩, str "10"⟩) := by decide

example :
    (handleBlur ⟨false, false, none, some ⟨10, 0⟩, some ⟨100, 0⟩, none, none⟩
      (str "10") (str "10")).2.getLast? = some ⟨⟨10, 0⟩, str "10"⟩ := by decide

example :
    handleValueChange ⟨false, true, none, none, none, none, none⟩ (str "-") =
      (str "-", ⟨⟨0, 0⟩, str "-"⟩) := by decide

example :
    handleValueChange ⟨false, false, none, none, none, none, none⟩ (str "-") =
      ([], ⟨⟨0, 0⟩, []⟩) := by decide

example :
    handleValueChange ⟨true, false, none, some ⟨1, 0⟩, none, none, none⟩ (str "0.5") =
      (str "0.5", ⟨⟨5, 1⟩, str "0.5"⟩) := by decide

example :
    handleValueChange ⟨false, false, none, none, none, none, none⟩ (str "99999999999999999995") =
      (str "9007199254740991", ⟨⟨9007199254740991, 0⟩, str "9007199254740991"⟩) := by decide

theorem decAbsGtMax_iff (d : Dec) :
    decAbsGtMax d = true ↔ (MAX_SAFE_INTEGER : ℚ) < |d.toRat| := by
  unfold decAbsGtMax Dec.toRat
  rw [decide_eq_true_iff, abs_div, abs_of_pos (a := ((10 : ℚ)) ^ d.e) (by positivity),
    lt_div_iff₀ (by positivity), ← Int.cast_abs]
  constructor
  · intro h
    exact_mod_cast h
  · intro h
    exact_mod_cast h

/-- Claim C10: when `maxLength` equals 0 the sanitizer applies no digit cap
at all; the result coincides with the `maxLength`-undefined run on every
input, so every digit is retained. -/
theorem c10_maxLength_zero_is_no_cap (input : List Char) (allowDecimal allowNegative : Bool) :
    normalizeNumericInput input allowDecimal allowNegative (some 0) =
      normalizeNumericInput input allowDecimal allowNegative none := by
  unfold normalizeNumericInput applyMaxLength
  simp

/-- Claim C8: a sanitized token equal to the lone minus emits
`{ value: 0, formattedValue: "-" }` with raw token `-` exactly when
negatives are allowed, and is treated as empty input otherwise; in
particular raw input `"-"` under `allowNegative` yields `{0, "-"}` and under
`allowNegative = false` yields `{0, ""}` with the raw token cleared. -/
theorem c8_lone_minus (cfg : Config) (input : List Char)
    (h : sanitizedTokenOf cfg input = ['-']) :
    (cfg.allowNegative = true →
      handleValueChange cfg input = (['-'], ⟨⟨0, 0⟩, ['-']⟩)) ∧
    (cfg.allowNegative = false →
      handleValueChange cfg input = ([], ⟨⟨0, 0⟩, []⟩)) ∧
    handleValueChange ⟨false, true, none, none, none, none, none⟩ (str "-") =
      (str "-", ⟨⟨0, 0⟩, str "-"⟩) ∧
    handleValueChange ⟨false, false, none, none, none, none, none⟩ (str "-") =
      ([], ⟨⟨0, 0⟩, []⟩) := by
  refine ⟨?_, ?_, by decide, by decide⟩ <;>
    · intro hn
      unfold handleValueChange
      rw [h]
      simp [hn]

theorem c8_lone_minus_witness :
    (sanitizedTokenOf ⟨false, true, none, none, none, none, none⟩ (str "-") = ['-']) ∧
    handleValueChange ⟨false, true, none, none, none, none, none⟩ (str "-") =
      (['-'], ⟨⟨0, 0⟩, ['-']⟩) := by
  refine ⟨by decide, ?_⟩
  exact (c8_lone_minus ⟨false, true, none, none, none, none, none⟩ (str "-")
    (by decide)).1 rfl

/-- Claim C7: a token whose parsed absolute value exceeds the safe-integer
ceiling 2^53 - 1 is clamped to the ceiling of its sign; the clamped
integer's decimal rendering replaces the raw token (so any fractional part
is discarded) and the emission carries the clamped integer and its
formatting, which has no decimal point in its rendering. -/
theorem c7_overflow_clamp (cfg : Config) (input : List Char) (v : Dec)
    (hs : sanitizedTokenOf cfg input ≠ [])
    (hm : sanitizedTokenOf cfg input ≠ ['-'])
    (hp : parseDec (leadingZeroReduce (sanitizedTokenOf cfg input)) = some v)
    (ho : (MAX_SAFE_INTEGER : ℚ) < |v.toRat|) :
    handleValueChange cfg input =
      ((overflowClamp v).render,
        ⟨overflowClamp v, formatValue cfg (overflowClamp v)⟩) ∧
    '.' ∉ (overflowClamp v).render := by
  have ho' : decAbsGtMax v = true := (decAbsGtMax_iff v).2 ho
  constructor
  · unfold handleValueChange
    rw [if_neg hs, if_neg hm]
    simp only [hp, ho', if_true]
  · unfold overflowClamp
    by_cases h : 0 < v.m
    · rw [if_pos h]; decide
    · rw [if_neg h]; decide

theorem splitDots_no_dot (l : List Char) (h : '.' ∉ l) : splitDots l = [l] := by
  induction l with
  | nil => rfl
  | cons c rest ih =>
    have hc : c ≠ '.' := fun hx => h (hx ▸ List.mem_cons_self c rest)
    have hr : '.' ∉ rest := fun hx => h (List.mem_cons_of_mem c hx)
    simp only [splitDots, if_neg hc, ih hr]

theorem splitDots_append_dot (a b : List Char) (ha : '.' ∉ a) :
    splitDots (a ++ '.' :: b) = a :: splitDots b := by
  induction a with
  | nil => simp [splitDots]
  | cons c rest ih =>
    have hc : c ≠ '.' := fun hx => ha (hx ▸ List.mem_cons_self c rest)
    have hr : '.' ∉ rest := fun hx => ha (List.mem_cons_of_mem c hx)
    rw [List.cons_append]
    simp only [splitDots, if_neg hc, ih hr]

/-- Decomposition of a list at its first dot. -/
theorem dot_decomp (l : List Char) (hc : '.' ∈ l) :
    l = l.takeWhile (fun c => c ≠ '.') ++
      '.' :: (l.dropWhile (fun c => c ≠ '.')).drop 1 := by
  induction l with
  | nil => simp at hc
  | cons c rest ih =>
    by_cases h : c = '.'
    · subst h
      simp [List.takeWhile_cons, List.dropWhile_cons]
    · have hc' : '.' ∈ rest := by
        rcases hc with _ | hm
        · exact absurd rfl h
        · assumption
      have hb : (fun x => decide (x ≠ '.')) c = true := by simpa using h
      rw [List.takeWhile_cons, List.dropWhile_cons]
      simp only [hb, if_true, List.cons_append]
      exact congrArg (c :: ·) (ih hc')

theorem not_dot_mem_takeWhile (l : List Char) :
    '.' ∉ l.takeWhile (fun c => c ≠ '.') := by
  intro h
  have := List.mem_takeWhile_imp h
  simp at this

theorem goodMinus_of_not_mem {l : List Char} (h : '-' ∉ l) : goodMinus l := by
  cases l with
  | nil => trivial
  | cons c rest => exact fun hx => h (List.mem_cons_of_mem c hx)

theorem goodMinus_count_le_one {l : List Char} (h : goodMinus l) : l.count '-' ≤ 1 := by
  cases l with
  | nil => simp
  | cons c rest =>
    have : rest.count '-' = 0 := List.count_eq_zero.mpr h
    rw [List.count_cons, this]
    split <;> omega

theorem goodMinus_filter {l : List Char} (p : Char → Bool) (h : goodMinus l) :
    goodMinus (l.filter p) := by
  cases l with
  | nil => trivial
  | cons c rest =>
    have hr : '-' ∉ rest.filter p := fun hx => h (List.mem_of_mem_filter hx)
    rw [List.filter_cons]
    split
    · exact hr
    · exact goodMinus_of_not_mem hr

theorem not_minus_mem_filter_ne (l : List Char) : '-' ∉ l.filter (fun c => c ≠ '-') := by
  intro h
  have := List.of_mem_filter h
  simp at this

theorem keepFirstDot_cons_dot (rest : List Char) :
    keepFirstDot ('.' :: rest) = '.' :: rest.filter (fun x => x ≠ '.') := by
  simp [keepFirstDot]

theorem keepFirstDot_cons_ne {c : Char} (rest : List Char) (h : c ≠ '.') :
    keepFirstDot (c :: rest) = c :: keepFirstDot rest := by
  simp [keepFirstDot, h]

theorem keepFirstDot_sublist (l : List Char) : (keepFirstDot l).Sublist l := by
  induction l with
  | nil => exact List.Sublist.refl []
  | cons c rest ih =>
    by_cases h : c = '.'
    · subst h
      rw [keepFirstDot_cons_dot]
      exact List.Sublist.cons₂ '.' (List.filter_sublist rest)
    · rw [keepFirstDot_cons_ne rest h]
      exact List.Sublist.cons₂ c ih

theorem goodMinus_keepFirstDot {l : List Char} (h : goodMinus l) :
    goodMinus (keepFirstDot l) := by
  cases l with
  | nil => trivial
  | cons c rest =>
    by_cases hc : c = '.'
    · subst hc
      rw [keepFirstDot_cons_dot]
      exact fun hx => h (List.mem_of_mem_filter hx)
    · rw [keepFirstDot_cons_ne rest hc]
      exact fun hx => h ((keepFirstDot_sublist rest).mem hx)

theorem count_dot_keepFirstDot (l : List Char) : (keepFirstDot l).count '.' ≤ 1 := by
  induction l with
  | nil => simp [keepFirstDot]
  | cons c rest ih =>
    by_cases h : c = '.'
    · subst h
      rw [keepFirstDot_cons_dot]
      rw [List.count_cons]
      have h0 : (rest.filter (fun x => x ≠ '.')).count '.' = 0 := by
        rw [List.count_eq_zero]
        intro hx
        have := List.of_mem_filter hx
        simp at this
      simp only [ne_eq, decide_not] at h0
      simp [h0]
    · rw [keepFirstDot_cons_ne rest h]
      have h1 : (c :: keepFirstDot rest).count '.' = (keepFirstDot rest).count '.' := by
        rw [List.count_cons]
        simp [h]
      rw [h1]
      exact ih

theorem capLoop_sublist (n : Nat) (l : List Char) :
    ∀ (seen : Nat) (dot : Bool), (capLoop n seen dot l).Sublist l := by
  induction l with
  | nil => intro seen dot; exact List.Sublist.refl []
  | cons c rest ih =>
    intro seen dot
    unfold capLoop
    split
    · split
      · exact (ih (seen + 1) dot).cons₂ c
      · exact List.Sublist.cons c (ih seen dot)
    · split
      · split
        · rename_i hg _
          have hc : c = '.' := by
            have := (Bool.and_eq_true ..).mp hg
            simpa using this.1
          rw [show ('.' : Char) = c from hc.symm]
          exact (ih seen true).cons₂ c
        · exact List.Sublist.cons c (ih seen dot)
      · exact List.Sublist.cons c (ih seen dot)

theorem capLoop_mem (n : Nat) (l : List Char) :
    ∀ (seen : Nat) (dot : Bool) (a : Char),
      a ∈ capLoop n seen dot l → a.isDigit = true ∨ a = '.' := by
  induction l with
  | nil => intro seen dot a ha; simp [capLoop] at ha
  | cons c rest ih =>
    intro seen dot a ha
    unfold capLoop at ha
    split at ha
    · rename_i hd
      split at ha
      · rcases ha with _ | hm
        · exact Or.inl hd
        · exact ih _ _ _ (by assumption)
      · exact ih _ _ _ ha
    · split at ha
      · split at ha
        · rcases ha with _ | hm
          · exact Or.inr rfl
          · exact ih _ _ _ (by assumption)
        · exact ih _ _ _ ha
      · exact ih _ _ _ ha

theorem capLoop_filter_digits (n : Nat) (l : List Char) :
    ∀ (seen : Nat) (dot : Bool),
      (capLoop n seen dot l).filter (fun c => c.isDigit) =
        (l.filter (fun c => c.isDigit)).take (n - seen) := by
  induction l with
  | nil => intro seen dot; simp [capLoop]
  | cons c rest ih =>
    intro seen dot
    unfold capLoop
    by_cases hd : c.isDigit
    · rw [if_pos hd]
      by_cases hs : seen < n
      · rw [if_pos hs, List.filter_cons_of_pos hd, List.filter_cons_of_pos hd, ih]
        have he : n - seen = (n - (seen + 1)) + 1 := by omega
        rw [he, List.take_succ_cons]
      · rw [if_neg hs, ih, List.filter_cons_of_pos hd]
        have he : n - seen = 0 := by omega
        rw [he]
        simp
    · rw [if_neg hd]
      split
      · split
        · rw [List.filter_cons_of_neg (by decide : ¬('.' : Char).isDigit = true), ih,
            List.filter_cons_of_neg hd]
        · rw [ih, List.filter_cons_of_neg hd]
      · rw [ih, List.filter_cons_of_neg hd]

theorem capLoop_keeps_dot (n : Nat) (hn : n ≠ 0) (l : List Char) :
    ∀ (seen : Nat), '.' ∈ l →
      (0 < seen ∨ ∃ c ∈ l.takeWhile (fun c => c ≠ '.'), c.isDigit = true) →
      '.' ∈ capLoop n seen false l := by
  induction l with
  | nil => intro seen hm; simp at hm
  | cons c rest ih =>
    intro seen hm hpre
    unfold capLoop
    by_cases hd : c.isDigit
    · have hcne : c ≠ '.' := by
        intro hx; rw [hx] at hd; simp at hd
      have hmr : '.' ∈ rest := by
        rcases hm with _ | h
        · exact absurd rfl hcne
        · assumption
      rw [if_pos hd]
      by_cases hs : seen < n
      · rw [if_pos hs]
        exact List.mem_cons_of_mem c (ih (seen + 1) hmr (Or.inl (by omega)))
      · rw [if_neg hs]
        exact ih seen hmr (Or.inl (by omega))
    · rw [if_neg hd]
      by_cases hc : c = '.'
      · subst hc
        have hg : (('.' : Char) = '.' && !false) = true := by simp
        rw [if_pos hg]
        rcases hpre with hs | ⟨d, hd1, hd2⟩
        · rw [if_pos hs]
          exact List.mem_cons_self '.' _
        · rw [List.takeWhile_cons] at hd1
          simp at hd1
      · have hg : ¬((c = '.' && !false) = true) := by simp [hc]
        rw [if_neg hg]
        have hmr : '.' ∈ rest := by
          rcases hm with _ | h
          · exact absurd rfl hc
          · assumption
        apply ih seen hmr
        rcases hpre with hs | ⟨d, hd1, hd2⟩
        · exact Or.inl hs
        · refine Or.inr ⟨d, ?_, hd2⟩
          rw [List.takeWhile_cons] at hd1
          simp only [show (decide (c ≠ '.')) = true by simpa using hc, if_true] at hd1
          rcases hd1 with _ | h
          · rw [hd2] at hd  -- d = c case: c would be a digit
            exact absurd hd (by simp)
          · assumption

theorem listStartsWith_minus_nil : listStartsWith [] ['-'] = false := rfl

theorem listStartsWith_minus_cons (c : Char) (rest : List Char) :
    listStartsWith (c :: rest) ['-'] = decide (c = '-') := by
  simp [listStartsWith]

theorem listStartsWith_minus_iff (l : List Char) :
    listStartsWith l ['-'] = true ↔ ∃ rest, l = '-' :: rest := by
  cases l with
  | nil => simp [listStartsWith_minus_nil]
  | cons c rest =>
    rw [listStartsWith_minus_cons]
    simp only [decide_eq_true_iff]
    constructor
    · intro h; exact ⟨rest, by rw [h]⟩
    · rintro ⟨r, hr⟩
      exact (List.cons.injEq .. ▸ hr).1

theorem goodMinus_startsWith {l : List Char} (hg : goodMinus l) (hm : '-' ∈ l) :
    listStartsWith l ['-'] = true := by
  cases l with
  | nil => simp at hm
  | cons c rest =>
    rw [listStartsWith_minus_cons]
    rcases hm with _ | h
    · simp
    · exact absurd (by assumption) hg

theorem dedupMinus_count (l : List Char) : (dedupMinus l).count '-' ≤ 1 := by
  unfold dedupMinus
  split
  · split
    · have h0 : (('-' :: (l.drop 1).filter (fun c => c ≠ '-')).count '-') =
          ((l.drop 1).filter (fun c => c ≠ '-')).count '-' + 1 := by
        rw [List.count_cons]; simp
      rw [h0, List.count_eq_zero.mpr (not_minus_mem_filter_ne (l.drop 1))]
    · rw [List.count_eq_zero.mpr (not_minus_mem_filter_ne l)]
      omega
  · omega

theorem goodMinus_moveMinusFront {l : List Char} (h : l.count '-' ≤ 1) :
    goodMinus (moveMinusFront l) := by
  unfold moveMinusFront
  by_cases hc : (l.contains '-' && !(listStartsWith l ['-'])) = true
  · rw [if_pos hc]
    exact not_minus_mem_filter_ne l
  · rw [if_neg hc]
    rw [Bool.and_eq_true, not_and_or] at hc
    rcases hc with hnc | hsw
    · refine goodMinus_of_not_mem (fun hm => hnc ?_)
      simpa using hm
    · have hsw' : listStartsWith l ['-'] = true := by simpa using hsw
      obtain ⟨rest, hrest⟩ := (listStartsWith_minus_iff l).mp hsw'
      subst hrest
      have hcc : ('-' :: rest).count '-' = rest.count '-' + 1 := by
        rw [List.count_cons]; simp
      exact List.count_eq_zero.mp (by omega)

theorem handleMinus_goodMinus (aN : Bool) (l : List Char) :
    goodMinus (handleMinus aN l) := by
  unfold handleMinus
  split
  · exact goodMinus_moveMinusFront (dedupMinus_count l)
  · exact goodMinus_of_not_mem (not_minus_mem_filter_ne l)

theorem handleDecimal_goodMinus (aD : Bool) {l : List Char} (h : goodMinus l) :
    goodMinus (handleDecimal aD l) := by
  unfold handleDecimal
  split
  · split
    · exact goodMinus_keepFirstDot h
    · exact h
  · exact goodMinus_filter _ h

theorem handleDecimal_count_dot (aD : Bool) (l : List Char) :
    (handleDecimal aD l).count '.' ≤ 1 := by
  unfold handleDecimal
  split
  · split
    · exact count_dot_keepFirstDot l
    · omega
  · rw [List.count_eq_zero.mpr]
    · omega
    · intro hx
      have := List.of_mem_filter hx
      simp at this

theorem not_minus_mem_capLoop (n seen : Nat) (dot : Bool) (l : List Char) :
    '-' ∉ capLoop n seen dot l := by
  intro h
  rcases capLoop_mem n l seen dot '-' h with hd | hd
  · simp at hd
  · simp at hd

theorem applyMaxLength_goodMinus (mL : Option Nat) {l : List Char} (h : goodMinus l) :
    goodMinus (applyMaxLength mL l) := by
  cases mL with
  | none => exact h
  | some n =>
    simp only [applyMaxLength]
    split
    · exact h
    · split
      · split
        · exact not_minus_mem_capLoop n 0 false (l.drop 1)
        · exact goodMinus_of_not_mem (not_minus_mem_capLoop n 0 false l)
      · exact h

theorem applyMaxLength_count_dot (mL : Option Nat) (l : List Char) (h : l.count '.' ≤ 1) :
    (applyMaxLength mL l).count '.' ≤ 1 := by
  cases mL with
  | none => exact h
  | some n =>
    simp only [applyMaxLength]
    split
    · exact h
    · split
      · split
        · have h1 : ('-' :: capLoop n 0 false (l.drop 1)).count '.' =
              (capLoop n 0 false (l.drop 1)).count '.' := by
            rw [List.count_cons]; simp
          rw [h1]
          calc (capLoop n 0 false (l.drop 1)).count '.'
              ≤ (l.drop 1).count '.' := (capLoop_sublist n (l.drop 1) 0 false).count_le '.'
            _ ≤ l.count '.' := (List.drop_sublist 1 l).count_le '.'
            _ ≤ 1 := h
        · calc (capLoop n 0 false l).count '.'
              ≤ l.count '.' := (capLoop_sublist n l 0 false).count_le '.'
            _ ≤ 1 := h
      · exact h

theorem countDigits_applyMaxLength (n : Nat) (hn : n ≠ 0) (l : List Char) :
    countDigits (applyMaxLength (some n) l) ≤ n := by
  simp only [applyMaxLength]
  rw [if_neg hn]
  split
  · split
    · unfold countDigits
      have h1 : ('-' :: capLoop n 0 false (l.drop 1)).countP (fun c => c.isDigit) =
          (capLoop n 0 false (l.drop 1)).countP (fun c => c.isDigit) := by
        rw [List.countP_cons]; simp
      rw [h1, List.countP_eq_length_filter, capLoop_filter_digits]
      simp [List.length_take_le n _]
    · unfold countDigits
      rw [List.countP_eq_length_filter, capLoop_filter_digits]
      simp [List.length_take_le n _]
  · omega

theorem mem_dedupMinus {l : List Char} {a : Char} (h : a ∈ dedupMinus l) : a ∈ l := by
  unfold dedupMinus at h
  split at h
  · split at h
    · rename_i hsw
      obtain ⟨rest, hrest⟩ := (listStartsWith_minus_iff l).mp hsw
      subst hrest
      rcases List.mem_cons.mp h with h1 | h1
      · rw [h1]; exact List.mem_cons_self '-' rest
      · have h2 : a ∈ ('-' :: rest).drop 1 := (List.filter_sublist _).mem h1
        simp only [List.drop_succ_cons, List.drop_zero] at h2
        exact List.mem_cons_of_mem '-' h2
    · exact (List.filter_sublist l).mem h
  · exact h

theorem mem_moveMinusFront {l : List Char} {a : Char} (h : a ∈ moveMinusFront l) :
    a ∈ l ∨ a = '-' := by
  unfold moveMinusFront at h
  split at h
  · rcases List.mem_cons.mp h with h1 | h1
    · exact Or.inr h1
    · exact Or.inl ((List.filter_sublist l).mem h1)
  · exact Or.inl h

theorem mem_handleMinus {aN : Bool} {l : List Char} {a : Char}
    (h : a ∈ handleMinus aN l) : a ∈ l ∨ (aN = true ∧ a = '-') := by
  unfold handleMinus at h
  split at h
  · rcases mem_moveMinusFront h with h1 | h1
    · exact Or.inl (mem_dedupMinus h1)
    · rename_i haN
      exact Or.inr ⟨haN, h1⟩
  · exact Or.inl ((List.filter_sublist l).mem h)

theorem mem_handleDecimal {aD : Bool} {l : List Char} {a : Char}
    (h : a ∈ handleDecimal aD l) : a ∈ l := by
  unfold handleDecimal at h
  split at h
  · split at h
    · exact (keepFirstDot_sublist l).mem h
    · exact h
  · exact (List.filter_sublist l).mem h

theorem mem_applyMaxLength {mL : Option Nat} {l : List Char} {a : Char}
    (h : a ∈ applyMaxLength mL l) : a ∈ l := by
  cases mL with
  | none => exact h
  | some n =>
    simp only [applyMaxLength] at h
    split at h
    · exact h
    · split at h
      · split at h
        · rename_i hsw
          obtain ⟨rest, hrest⟩ := (listStartsWith_minus_iff l).mp hsw
          subst hrest
          rcases List.mem_cons.mp h with h1 | h1
          · rw [h1]; exact List.mem_cons_self '-' rest
          · have h2 : a ∈ ('-' :: rest).drop 1 := (capLoop_sublist n _ 0 false).mem h1
            simp only [List.drop_succ_cons, List.drop_zero] at h2
            exact List.mem_cons_of_mem '-' h2
        · exact (capLoop_sublist n l 0 false).mem h
      · exact h

theorem handleMinus_id {aN : Bool} {l : List Char} (hg : goodMinus l)
    (hnm : aN = false → '-' ∉ l) : handleMinus aN l = l := by
  unfold handleMinus
  split
  · have hded : dedupMinus l = l := by
      unfold dedupMinus
      rw [if_neg]
      intro hc
      exact absurd (goodMinus_count_le_one hg) (by omega)
    rw [hded]
    unfold moveMinusFront
    rw [if_neg]
    intro hc
    rw [Bool.and_eq_true] at hc
    have hmem : '-' ∈ l := by simpa using hc.1
    have := goodMinus_startsWith hg hmem
    rw [this] at hc
    simp at hc
  · rename_i haN
    have haN' : aN = false := by
      cases aN
      · rfl
      · exact absurd rfl haN
    rw [List.filter_eq_self.mpr]
    intro a ha
    simp only [decide_eq_true_iff]
    intro hx
    exact hnm haN' (hx ▸ ha)

theorem handleDecimal_id {aD : Bool} {l : List Char} (hd : l.count '.' ≤ 1)
    (hnd : aD = false → '.' ∉ l) : handleDecimal aD l = l := by
  unfold handleDecimal
  split
  · rw [if_neg]
    omega
  · rename_i haD
    have haD' : aD = false := by
      cases aD
      · rfl
      · exact absurd rfl haD
    rw [List.filter_eq_self.mpr]
    intro a ha
    simp only [decide_eq_true_iff]
    intro hx
    exact hnd haD' (hx ▸ ha)

theorem applyMaxLength_id {mL : Option Nat} {l : List Char}
    (hc : ∀ nn, mL = some nn → nn ≠ 0 → countDigits l ≤ nn) :
    applyMaxLength mL l = l := by
  cases mL with
  | none => rfl
  | some n =>
    simp only [applyMaxLength]
    by_cases hn : n = 0
    · rw [if_pos hn]
    · rw [if_neg hn, if_neg]
      exact not_lt.mpr (hc n rfl hn)

/-- A sanitized token re-enters the sanitizer unchanged: the composite
invariants of the four passes make the second run the identity. -/
theorem normalizeNumericInput_id {l : List Char} {aD aN : Bool} {mL : Option Nat}
    (hA : ∀ a ∈ l, allowedChar aD aN a = true)
    (hg : goodMinus l) (hd : l.count '.' ≤ 1)
    (hc : ∀ nn, mL = some nn → nn ≠ 0 → countDigits l ≤ nn) :
    normalizeNumericInput l aD aN mL = l := by
  unfold normalizeNumericInput
  rw [List.filter_eq_self.mpr hA]
  rw [handleMinus_id hg (fun haN hm => by
    have := hA '-' hm
    rw [haN] at this
    simp [allowedChar] at this)]
  rw [handleDecimal_id hd (fun haD hm => by
    have := hA '.' hm
    rw [haD] at this
    simp [allowedChar] at this)]
  exact applyMaxLength_id hc

theorem digitChar_isDigit (k : Nat) : (Char.ofNat (48 + k % 10)).isDigit = true := by
  have h : k % 10 < 10 := Nat.mod_lt _ (by omega)
  set r := k % 10 with hr
  interval_cases r <;> decide

theorem mem_natToDigitsAux (fuel : Nat) :
    ∀ (n : Nat) (acc : List Char), (∀ c ∈ acc, c.isDigit = true) →
      ∀ c ∈ natToDigitsAux fuel n acc, c.isDigit = true := by
  induction fuel with
  | zero => intro n acc hacc c hc; exact hacc c hc
  | succ fuel ih =>
    intro n acc hacc c hc
    unfold natToDigitsAux at hc
    split at hc
    · rcases List.mem_cons.mp hc with h | h
      · rw [h]; exact digitChar_isDigit n
      · exact hacc c h
    · refine ih (n / 10) _ ?_ c hc
      intro x hx
      rcases List.mem_cons.mp hx with h | h
      · rw [h]; exact digitChar_isDigit n
      · exact hacc x h

theorem mem_natToDigits {n : Nat} {c : Char} (h : c ∈ natToDigits n) :
    c.isDigit = true := by
  exact mem_natToDigitsAux (n + 1) n [] (by simp) c h

theorem mem_renderPadded {m : Int} {e : Nat} {x : Char} (h : x ∈ renderPadded m e) :
    x.isDigit = true := by
  unfold renderPadded at h
  rcases List.mem_append.mp h with h1 | h1
  · rw [List.eq_of_mem_replicate h1]; decide
  · exact mem_natToDigits h1

theorem renderPadded_no_minus (m : Int) (e : Nat) : '-' ∉ renderPadded m e := by
  intro h
  have := mem_renderPadded h
  simp at this

theorem no_dot_in_rest (w : List Char) (hd : w.count '.' ≤ 1) (hm : '.' ∈ w) :
    '.' ∉ (w.dropWhile (fun c => c ≠ '.')).drop 1 := by
  intro hx
  have hdec := dot_decomp w hm
  have : 1 + 1 ≤ w.count '.' := by
    conv_rhs => rw [hdec]
    rw [List.count_append, List.count_cons]
    have h1 : 0 < ((w.dropWhile (fun c => c ≠ '.')).drop 1).count '.' :=
      List.count_pos_iff.mpr hx
    simp only [beq_self_eq_true, if_true]
    omega
  omega

/-- Claim C5, counterexample: the sanitized token `00.` (reachable: it is its
own sanitization) reduces to `0` in the source, while the claim's wording
(reattach the decimal suffix) would give `0.`. -/
theorem c5_counterexample :
    normalizeNumericInput (str "00.") true false none = str "00." ∧
    leadingZeroReduce (str "00.") = str "0" ∧
    leadingZeroReduceSpec (str "00.") = str "0." ∧
    str "0" ≠ str "0." := by
  refine ⟨by decide, by decide, by decide, by decide⟩

/-- Claim C5 amended: on every token with at most one decimal point (as all
sanitized tokens have), the reducer preserves the four single-zero idioms
verbatim and otherwise splits sign and decimal suffix, strips leading
zeros, substitutes `0` for an emptied integer part and reattaches sign and
suffix — except that a token whose integer part empties and whose decimal
suffix is empty (like `00.`) loses the decimal point and becomes the bare
signed zero. -/
theorem c5_reducer_amended (l : List Char) (hd : l.count '.' ≤ 1) :
    leadingZeroReduce l = leadingZeroReduceAmended l := by
  unfold leadingZeroReduce leadingZeroReduceAmended
  by_cases hk : shouldKeepSingleZero l = true
  · simp [hk]
  · simp only [hk, if_false]
    have hwc : (if listStartsWith l ['-'] = true then l.drop 1 else l).count '.' ≤ 1 := by
      split
      · exact le_trans (List.Sublist.count_le (List.drop_sublist 1 l) '.') hd
      · exact hd
    set w := if listStartsWith l ['-'] = true then l.drop 1 else l with hw
    by_cases hdot : w.contains '.' = true
    · have hmem : '.' ∈ w := by simpa using hdot
      have hrest : '.' ∉ (w.dropWhile (fun c => c ≠ '.')).drop 1 :=
        no_dot_in_rest w hwc hmem
      have h1 : splitDots w =
          [w.takeWhile (fun c => c ≠ '.'), (w.dropWhile (fun c => c ≠ '.')).drop 1] := by
        conv_lhs => rw [dot_decomp w hmem]
        rw [splitDots_append_dot _ _ (not_dot_mem_takeWhile w), splitDots_no_dot _ hrest]
      simp only [if_pos hdot, h1, List.headD_cons, List.getElem?_cons_succ,
        List.getElem?_cons_zero, Option.getD_some]
      set tw := w.takeWhile (fun c => c ≠ '.')
      set rest := (w.dropWhile (fun c => c ≠ '.')).drop 1
      by_cases hci : tw.dropWhile (fun c => c = '0') = []
      · by_cases hdp : rest = []
        · simp [hci, hdp]
        · simp [hci, hdp]
      · simp [hci, List.append_assoc]
    · simp only [if_neg hdot]
      by_cases hc : w.dropWhile (fun c => c = '0') = []
      · simp [hc]
      · simp [hc]

theorem c5_reducer_amended_witness :
    (str "00123").count '.' ≤ 1 ∧
    leadingZeroReduce (str "00123") = leadingZeroReduceAmended (str "00123") ∧
    leadingZeroReduce (str "00123") = str "123" :=
  ⟨by decide, c5_reducer_amended (str "00123") (by decide), by decide⟩

/-- Claim C6: with a (nonzero) `maxLength` the sanitizer caps the digit
count only: the kept digits are exactly the first `maxLength` digits of the
uncapped sanitization, the leading sign is unaffected by the cap, a decimal
point preceded by at least one digit survives the cap, and a token whose
digit count is within the cap passes unchanged. (A `maxLength` of 0 is falsy
and disables the cap; see claim C10.) -/
theorem c6_maxLength_digit_cap (input : List Char) (aD aN : Bool) (n : Nat) (hn : n ≠ 0) :
    (normalizeNumericInput input aD aN (some n)).filter (fun c => c.isDigit) =
      ((normalizeNumericInput input aD aN none).filter (fun c => c.isDigit)).take n ∧
    ((normalizeNumericInput input aD aN (some n)).head? = some '-' ↔
      (normalizeNumericInput input aD aN none).head? = some '-') ∧
    (('.' ∈ normalizeNumericInput input aD aN none ∧
        ∃ c ∈ (normalizeNumericInput input aD aN none).takeWhile (fun c => c ≠ '.'),
          c.isDigit = true) →
      '.' ∈ normalizeNumericInput input aD aN (some n)) ∧
    (countDigits (normalizeNumericInput input aD aN none) ≤ n →
      normalizeNumericInput input aD aN (some n) = normalizeNumericInput input aD aN none) := by
  have hnone : normalizeNumericInput input aD aN none =
      handleDecimal aD (handleMinus aN (input.filter (allowedChar aD aN))) := rfl
  have hsome : normalizeNumericInput input aD aN (some n) =
      applyMaxLength (some n)
        (handleDecimal aD (handleMinus aN (input.filter (allowedChar aD aN)))) := rfl
  rw [hnone, hsome]
  generalize handleDecimal aD (handleMinus aN (input.filter (allowedChar aD aN))) = pre
  simp only [applyMaxLength]
  rw [if_neg hn]
  by_cases hcap : n < countDigits pre
  · rw [if_pos hcap]
    by_cases hsw : listStartsWith pre ['-'] = true
    · obtain ⟨rest, hrest⟩ := (listStartsWith_minus_iff pre).mp hsw
      subst hrest
      rw [if_pos hsw]
      simp only [List.drop_succ_cons, List.drop_zero]
      refine ⟨?_, ?_, ?_, ?_⟩
      · rw [List.filter_cons_of_neg (by decide : ¬('-' : Char).isDigit = true),
          List.filter_cons_of_neg (by decide : ¬('-' : Char).isDigit = true),
          capLoop_filter_digits]
        simp
      · simp
      · rintro ⟨hdot, d, hd1, hd2⟩
        have hdot' : '.' ∈ rest := by
          rcases List.mem_cons.mp hdot with h | h
          · exact absurd h (by decide)
          · exact h
        have hd1' : d ∈ rest.takeWhile (fun c => c ≠ '.') := by
          rw [List.takeWhile_cons] at hd1
          simp only [show (decide (('-' : Char) ≠ '.')) = true by decide, if_true] at hd1
          rcases List.mem_cons.mp hd1 with h | h
          · rw [h] at hd2
            simp at hd2
          · exact h
        exact List.mem_cons_of_mem '-'
          (capLoop_keeps_dot n hn rest 0 hdot' (Or.inr ⟨d, hd1', hd2⟩))
      · intro h
        exact absurd hcap (not_lt.mpr h)
    · rw [if_neg hsw]
      refine ⟨?_, ?_, ?_, ?_⟩
      · rw [capLoop_filter_digits]
        simp
      · constructor
        · intro h
          exfalso
          have hm : '-' ∈ capLoop n 0 false pre := by
            cases hcl : capLoop n 0 false pre with
            | nil => rw [hcl] at h; simp at h
            | cons x xs =>
              rw [hcl] at h
              simp only [List.head?_cons, Option.some.injEq] at h
              rw [h]
              exact List.mem_cons_self '-' xs
          exact not_minus_mem_capLoop n 0 false pre hm
        · intro h
          exfalso
          apply hsw
          cases pre with
          | nil => simp at h
          | cons x xs =>
            simp only [List.head?_cons, Option.some.injEq] at h
            rw [listStartsWith_minus_cons]
            simp [h]
      · rintro ⟨hdot, d, hd1, hd2⟩
        exact capLoop_keeps_dot n hn pre 0 hdot (Or.inr ⟨d, hd1, hd2⟩)
      · intro h
        exact absurd hcap (not_lt.mpr h)
  · rw [if_neg hcap]
    push_neg at hcap
    refine ⟨?_, Iff.rfl, fun h => h.1, fun _ => rfl⟩
    rw [List.take_of_length_le]
    rw [← List.countP_eq_length_filter]
    exact hcap

theorem c6_maxLength_digit_cap_witness :
    (2 : Nat) ≠ 0 ∧
    ((normalizeNumericInput (str "-123.45") true true (some 2)).filter
        (fun c => c.isDigit) =
      ((normalizeNumericInput (str "-123.45") true true none).filter
        (fun c => c.isDigit)).take 2) ∧
    normalizeNumericInput (str "-123.45") true true (some 2) = str "-12." := by
  refine ⟨by decide, ?_, by decide⟩
  exact (c6_maxLength_digit_cap (str "-123.45") true true 2 (by decide)).1

/-- Claim C9: the token sanitizer is idempotent — for every input and every
combination of `allowDecimal`, `allowNegative` and `maxLength`, applying
`normalizeNumericInput` to its own output returns that output unchanged. -/
theorem c9_sanitizer_idempotent (input : List Char) (aD aN : Bool) (mL : Option Nat) :
    normalizeNumericInput (normalizeNumericInput input aD aN mL) aD aN mL =
      normalizeNumericInput input aD aN mL := by
  apply normalizeNumericInput_id
  · intro a ha
    have h1 : a ∈ handleDecimal aD (handleMinus aN (input.filter (allowedChar aD aN))) :=
      mem_applyMaxLength ha
    have h2 := mem_handleDecimal h1
    rcases mem_handleMinus h2 with h3 | ⟨haN, h3⟩
    · exact List.of_mem_filter h3
    · rw [h3, haN]
      simp [allowedChar]
  · exact applyMaxLength_goodMinus mL (handleDecimal_goodMinus aD (handleMinus_goodMinus aN _))
  · exact applyMaxLength_count_dot mL _ (handleDecimal_count_dot aD _)
  · intro nn hnn hn0
    subst hnn
    exact countDigits_applyMaxLength nn hn0 _

theorem clampSeq_eq_below_above (cfg : Config) (v : Dec) :
    (clampSeq cfg v).1 = clampAbove cfg.maxValue (clampBelow cfg.minValue v) := by
  unfold clampSeq clampBelow clampAbove
  cases cfg.minValue <;> cases cfg.maxValue <;> simp <;> split <;> simp <;> split <;> simp

/-- Claim C1, counterexample: the token `0.5` is neither the single-zero
idiom (the four kept tokens of the spec) nor a token ending in a decimal
point, so the claim makes it complete and subject to clamping; yet with
`minValue = 1` the source emits it unclamped (the exemption also covers any
token starting with `0.` or `-0.`). -/
theorem c1_counterexample :
    (shouldKeepSingleZero (str "0.5") || endsWithDecPoint true (str "0.5")) = false ∧
    handleValueChange ⟨true, false, none, some ⟨1, 0⟩, none, none, none⟩ (str "0.5") =
      (str "0.5", ⟨⟨5, 1⟩, str "0.5"⟩) ∧
    decLt ⟨5, 1⟩ ⟨1, 0⟩ = true := by
  refine ⟨by decide, by decide, by decide⟩

/-- Claim C1 amended: for every sanitized token processed while focused, the
token is exempt from min/max clamping if and only if it equals `0` or `-0`,
or starts with `0.` or `-0.`, or ends in a single (un-doubled) decimal point
while decimals are allowed; every other token is complete and its emitted
value is clamped to `minValue` from below and to `maxValue` from above, each
bound applied independently wherever defined. -/
theorem c1_clamp_policy_amended (cfg : Config) (input t : List Char) (v : Dec)
    (hs : sanitizedTokenOf cfg input ≠ [])
    (hm : sanitizedTokenOf cfg input ≠ ['-'])
    (ht : leadingZeroReduce (sanitizedTokenOf cfg input) = t)
    (hp : parseDec t = some v)
    (ho : decAbsGtMax v = false) :
    (clampExempt cfg t = true ↔
      (t = str "0" ∨ t = str "-0" ∨ listStartsWith t (str "0.") = true ∨
        listStartsWith t (str "-0.") = true ∨
        (cfg.allowDecimal = true ∧ listEndsWith t (str ".") = true ∧
          listEndsWith t (str "..") = false))) ∧
    (clampExempt cfg t = true → (handleValueChange cfg input).2.value = v) ∧
    (clampExempt cfg t = false →
      (handleValueChange cfg input).2.value =
        clampAbove cfg.maxValue (clampBelow cfg.minValue v) ∧
      (handleValueChange cfg input).2.formattedValue =
        formatValue cfg (clampAbove cfg.maxValue (clampBelow cfg.minValue v))) := by
  have hhvc : handleValueChange cfg input =
      (let t0 := leadingZeroReduce (sanitizedTokenOf cfg input)
       match parseDec t0 with
       | none => ([], ⟨⟨0, 0⟩, []⟩)
       | some v =>
         if decAbsGtMax v then
           let c := overflowClamp v
           (c.render, ⟨c, formatValue cfg c⟩)
         else
           let isZ := isSingleZeroTok t0
           let ewd := endsWithDecPoint cfg.allowDecimal t0
           let fs := if !isZ && !ewd then clampSeq cfg v else (v, false)
           if isZ || ewd then
             ((if fs.2 then fs.1.render else t0), ⟨fs.1, if fs.2 then formatValue cfg fs.1 else t0⟩)
           else
             ((if fs.2 then fs.1.render else t0), ⟨fs.1, formatValue cfg fs.1⟩)) := by
    unfold handleValueChange
    rw [if_neg hs, if_neg hm]
  rw [hhvc]
  simp only [ht, hp, ho, Bool.false_eq_true, if_false]
  refine ⟨?_, ?_, ?_⟩
  · unfold clampExempt isSingleZeroTok endsWithDecPoint
    simp [Bool.or_eq_true, Bool.and_eq_true, decide_eq_true_iff]
    tauto
  · intro hex
    unfold clampExempt at hex
    rw [Bool.or_eq_true] at hex
    have h1 : (isSingleZeroTok t || endsWithDecPoint cfg.allowDecimal t) = true := by
      rcases hex with h | h <;> simp [h]
    have h2 : (!isSingleZeroTok t && !endsWithDecPoint cfg.allowDecimal t) = false := by
      rcases hex with h | h <;> simp [h]
    simp only [h1, h2, Bool.false_eq_true, if_false, if_true]
  · intro hex
    unfold clampExempt at hex
    rw [Bool.or_eq_false_iff] at hex
    obtain ⟨h1, h2⟩ := hex
    simp only [h1, h2, Bool.not_false, Bool.and_self, if_true, Bool.or_self,
      Bool.false_eq_true, if_false]
    rw [clampSeq_eq_below_above]
    exact ⟨rfl, rfl⟩

theorem c1_clamp_policy_amended_witness :
    clampExempt ⟨false, false, none, some ⟨10, 0⟩, some ⟨100, 0⟩, none, none⟩ (str "5") = false ∧
    (handleValueChange ⟨false, false, none, some ⟨10, 0⟩, some ⟨100, 0⟩, none, none⟩
        (str "5")).2.value =
      clampAbove (some ⟨100, 0⟩) (clampBelow (some ⟨10, 0⟩) ⟨5, 0⟩) ∧
    clampAbove (some ⟨100, 0⟩) (clampBelow (some ⟨10, 0⟩) ⟨5, 0⟩) = ⟨10, 0⟩ := by
  refine ⟨by decide, ?_, by decide⟩
  exact ((c1_clamp_policy_amended
    ⟨false, false, none, some ⟨10, 0⟩, some ⟨100, 0⟩, none, none⟩
    (str "5") (str "5") ⟨5, 0⟩ (by decide) (by decide) (by decide) (by decide)
    (by decide)).2.2 (by decide)).1

/-- Claim C2: on focus loss the blur-time clamp is re-applied to the
session's raw token whatever it was while focused (intermediate tokens
included — the block carries no exemption test beyond the two below): when
either bound changes the parsed value, the last emission of the blur handler
carries the value clamped to `minValue` from below and `maxValue` from
above with its formatting, and the raw token becomes its rendering; when the
value is already within bounds the clamp block emits nothing. The only
exemptions are the empty token and the lone-minus token under
`allowNegative`, which is left unclamped even on blur. Scenario: input `5`
with `minValue = 10`, `maxValue = 100` is clamped to `{10, "10"}`, and blur
re-confirms `{10, "10"}`. -/
theorem c2_blur_clamp (cfg : Config) (raw fieldText : List Char) :
    (∀ v : Dec, raw ≠ [] →
      ¬(cfg.allowNegative = true ∧ isMinusSign raw = true) →
      parseDec (convertFullWidthToHalfWidth raw) = some v →
      ((clampSeq cfg v).2 = true →
        (handleBlur cfg raw fieldText).2.getLast? =
          some ⟨clampAbove cfg.maxValue (clampBelow cfg.minValue v),
            formatValue cfg (clampAbove cfg.maxValue (clampBelow cfg.minValue v))⟩ ∧
        (handleBlur cfg raw fieldText).1 =
          (clampAbove cfg.maxValue (clampBelow cfg.minValue v)).render) ∧
      ((clampSeq cfg v).2 = false → blurClampStep cfg raw = none)) ∧
    (cfg.allowNegative = true → isMinusSign raw = true → blurClampStep cfg raw = none) ∧
    handleValueChange ⟨false, false, none, some ⟨10, 0⟩, some ⟨100, 0⟩, none, none⟩ (str "5") =
      (str "10", ⟨⟨10, 0⟩, str "10"⟩) ∧
    (handleBlur ⟨false, false, none, some ⟨10, 0⟩, some ⟨100, 0⟩, none, none⟩
        (str "10") (str "10")).2.getLast? = some ⟨⟨10, 0⟩, str "10"⟩ := by
  refine ⟨?_, ?_, by decide, by decide⟩
  · intro v hne hnm hp
    have hmin : blurMinusStep cfg raw fieldText = none := by
      unfold blurMinusStep
      rw [if_neg]
      intro hc
      rw [Bool.and_eq_true, Bool.and_eq_true] at hc
      rcases hc with ⟨⟨h1, h2⟩, _⟩
      rw [Bool.and_eq_true] at h1
      exact hnm ⟨h1.1, h2⟩
    have hguard : (decide (raw ≠ []) && !(cfg.allowNegative && isMinusSign raw)) = true := by
      rw [Bool.and_eq_true]
      constructor
      · exact decide_eq_true hne
      · rw [Bool.not_eq_true']
        rw [Bool.and_eq_false_iff]
        by_cases hmr : isMinusSign raw = true
        · left
          by_cases haN : cfg.allowNegative = true
          · exact absurd ⟨haN, hmr⟩ hnm
          · simpa using haN
        · right
          simpa using hmr
    constructor
    · intro hch
      have hstep2 : blurClampStep cfg raw =
          some (((clampSeq cfg v).1).render,
            ⟨(clampSeq cfg v).1, formatValue cfg (clampSeq cfg v).1⟩) := by
        unfold blurClampStep
        rw [if_pos hguard, hp]
        simp only [hch, if_true]
      rw [← clampSeq_eq_below_above]
      constructor
      · show (handleBlur cfg raw fieldText).2.getLast? = _
        unfold handleBlur
        rw [hstep2, hmin]
        by_cases hft : fieldText = []
        · rw [if_neg (by simp [hft])]
          simp
        · rw [if_pos hft]
          simp
      · show (handleBlur cfg raw fieldText).1 = _
        unfold handleBlur
        rw [hstep2, hmin]
    · intro hch
      unfold blurClampStep
      rw [if_pos hguard, hp]
      simp only [hch, Bool.false_eq_true, if_false]
  · intro haN hmr
    unfold blurClampStep
    rw [if_neg]
    intro hc
    rw [Bool.and_eq_true] at hc
    rcases hc with ⟨_, h2⟩
    rw [haN, hmr] at h2
    simp at h2

theorem c2_blur_clamp_witness :
    parseDec (convertFullWidthToHalfWidth (str "5.")) = some ⟨5, 0⟩ ∧
    (handleBlur ⟨true, false, none, some ⟨10, 0⟩, some ⟨100, 0⟩, none, none⟩
        (str "5.") (str "5.")).2.getLast? = some ⟨⟨10, 0⟩, str "10"⟩ ∧
    (handleBlur ⟨true, false, none, some ⟨10, 0⟩, some ⟨100, 0⟩, none, none⟩
        (str "5.") (str "5.")).1 = str "10" := by
  have h := ((c2_blur_clamp ⟨true, false, none, some ⟨10, 0⟩, some ⟨100, 0⟩, none, none⟩
    (str "5.") (str "5.")).1 ⟨5, 0⟩ (by decide) (by decide) (by decide)).1 (by decide)
  refine ⟨by decide, ?_, ?_⟩
  · rw [h.1]
    decide
  · rw [h.2]
    decide

theorem c7_overflow_clamp_witness :
    (MAX_SAFE_INTEGER : ℚ) < |(Dec.toRat ⟨99999999999999999995, 0⟩)| ∧
    handleValueChange ⟨false, false, none, none, none, none, none⟩ (str "99999999999999999995") =
      (str "9007199254740991", ⟨⟨9007199254740991, 0⟩, str "9007199254740991"⟩) ∧
    '.' ∉ str "9007199254740991" := by
  have h := c7_overflow_clamp ⟨false, false, none, none, none, none, none⟩
    (str "99999999999999999995") ⟨99999999999999999995, 0⟩
    (by decide) (by decide) (by decide)
    (by rw [← decAbsGtMax_iff]; decide)
  refine ⟨by rw [← decAbsGtMax_iff]; decide, ?_, by decide⟩
  rw [h.1]
  decide

